import Mathlib

/-!
The gasm line lexer (`parser/lexer.go`)

A shallow embedding of the line-classification pass of the `gasm` assembler
front end, together with theorems about it.

Modelling conventions.

* A Go `string` is a `List Char` (`GoString`).  The three regular expressions
  and `strings.TrimSpace` work rune by rune, and the only slice taken
  (`line[:loc[0]]`) cuts at the start of a `;`, so working with code points
  instead of bytes yields the same prefixes.  Input that is not valid UTF-8 is
  outside the model.
* Go `int` counters (`Lexer.Line`, `Line.Index`) are `Nat`; the counter starts
  at 1 and grows by one per scanned line, so it stays far below `2^63`.
* `bufio.Scanner` with its default `ScanLines` split is modelled by the list of
  lines it still has to deliver plus the read fault (if any) that ends the
  stream.
* The three patterns handed to `regexp.Compile` are constant and valid, so the
  three `err != nil` returns at the top of `linePass` are never taken.
-/

namespace parser

/-- Go `string`, as its sequence of code points. -/
abbrev GoString := List Char

/-- Go `error` values are represented by their message. -/
abbrev GoError := GoString

/-! ## Tokens -/

/-- Go `type Token int`. -/
abbrev Token := Nat

def EOF : Token := 0
def ILLEGAL : Token := 1
def COMMA : Token := 2
def OP : Token := 3
def SEMI : Token := 4
def LABEL : Token := 5
def COMMENT : Token := 6
def BYTE : Token := 7
def WORD : Token := 8
def LITERAL : Token := 9
def STRING : Token := 10
def DIRECTIVE : Token := 11

/-- Go `var tokens = []string{EOF: "EOF", ...}`: a slice indexed by token.  The
composite literal has no entry for `COMMA` (index 2), so that slot holds the
zero value, the empty string. -/
def tokens : List GoString :=
  [ "EOF".toList, "ILLEGAL".toList, [], "OP".toList, ";".toList, "LABEL".toList,
    "COMMENT".toList, "BYTE".toList, "WORD".toList, "LITERAL".toList,
    "STRING".toList, "DIRECTIVE".toList ]

/-- Go `func (t Token) String() string { return tokens[t] }`; `none` stands for
the index-out-of-range panic. -/
def Token.String (t : Token) : Option GoString := tokens[t]?

/-! ## Library functions used by the lexer -/

/-- Go `unicode.IsSpace`: the Latin-1 cases `\t \n \v \f \r`, space, U+0085,
U+00A0, and beyond Latin-1 the `White_Space` property. -/
def IsSpace (r : Char) : Bool :=
  let n := r.toNat
  (0x09 ≤ n && n ≤ 0x0D) || n == 0x20 || n == 0x85 || n == 0xA0 || n == 0x1680 ||
  (0x2000 ≤ n && n ≤ 0x200A) || n == 0x2028 || n == 0x2029 || n == 0x202F ||
  n == 0x205F || n == 0x3000

/-- Go `strings.TrimSpace`: drop leading, then trailing, `unicode.IsSpace`
runes. -/
def TrimSpace (s : GoString) : GoString :=
  (s.dropWhile IsSpace).rdropWhile IsSpace

/-- The regexp class `\w`: `[0-9A-Za-z_]`. -/
def isWordChar (c : Char) : Bool :=
  let n := c.toNat
  (0x30 ≤ n && n ≤ 0x39) || (0x41 ≤ n && n ≤ 0x5A) || (0x61 ≤ n && n ≤ 0x7A) || n == 0x5F

/-- The regexp class `\s` of Go (RE2) syntax: `[\t\n\f\r ]`. -/
def isReSpace (c : Char) : Bool :=
  let n := c.toNat
  n == 0x09 || n == 0x0A || n == 0x0C || n == 0x0D || n == 0x20

/-- The regexp class `[a-zA-Z ]` of the comment pattern. -/
def isCommentChar (c : Char) : Bool :=
  let n := c.toNat
  (0x61 ≤ n && n ≤ 0x7A) || (0x41 ≤ n && n ≤ 0x5A) || n == 0x20

/-! ## The three compiled patterns -/

/-- `labelRe.FindString(line)` for `labelRegex = ^\w+:$` (no flags, so `^` and
`$` are the two ends of the text).  `\w+` is followed by `:`, which is not a
word character, so the only candidate match takes the maximal run of word
characters; the match, when there is one, is the whole line.  No match is
reported as the empty string. -/
def labelRe.FindString (line : GoString) : GoString :=
  if line.takeWhile isWordChar ≠ [] ∧ line.dropWhile isWordChar = [':'] then line else []

/-- `directiveRe.MatchString(line)` for `directiveRegex = ^\s*\.[a-z]*`: after
the maximal run of `\s` at the start of the text comes a literal `.` (which is
not in `\s`); `[a-z]*` also matches the empty string and never makes the match
fail. -/
def directiveRe.MatchString (line : GoString) : Bool :=
  (line.dropWhile isReSpace).head? == some '.'

/-- Offset of the first `;` of a string, if any. -/
def indexSemi : GoString → Option Nat
  | [] => none
  | c :: cs => if c = ';' then some 0 else (indexSemi cs).map (· + 1)

/-- `commentRe.FindStringIndex(line)` for `commentRegex = ;[a-zA-Z ]*`: the
leftmost match starts at the first `;` and extends over the following run of
letters and spaces.  `none` is Go's `nil` (no `;` in the line). -/
def commentRe.FindStringIndex (line : GoString) : Option (Nat × Nat) :=
  match indexSemi line with
  | none => none
  | some i => some (i, i + 1 + ((line.drop (i + 1)).takeWhile isCommentChar).length)

/-! ## Data model -/

/-- Go `type Line struct { Index int; Type Token; Value string }`.  The field
`Type` is spelled `Typ` because `Type` is reserved. -/
structure Line where
  Index : Nat
  Typ : Token
  Value : GoString
deriving DecidableEq, Repr

/-- An `io.Reader` as seen through `bufio.Scanner`/`ScanLines`: the lines it
delivers, and the read fault that ends the stream (`none` for a clean
end of input). -/
structure Reader where
  lines : List GoString
  fault : Option GoError

/-- Go `bufio.Scanner`: the lines not yet scanned, the fault of the underlying
reader, and the error recorded so far (what `Err()` returns). -/
structure Scanner where
  pending : List GoString
  fault : Option GoError
  err : Option GoError

/-- Go `bufio.NewScanner`. -/
def NewScanner (reader : Reader) : Scanner :=
  ⟨reader.lines, reader.fault, none⟩

/-- Go `type Lexer struct { Line int; Scanner *bufio.Scanner; Lines []Line }`. -/
structure Lexer where
  Line : Nat
  Scanner : Scanner
  Lines : List parser.Line

/-- Go `NewLexer`. -/
def NewLexer (reader : Reader) : Lexer :=
  { Line := 1, Scanner := NewScanner reader, Lines := [] }

/-! ## The line pass -/

/-- One iteration of the `for l.Scanner.Scan()` loop of `linePass`, for the
scanned text `line` (source lines 118 to 144). -/
def linePassBody (l : Lexer) (line : GoString) : Lexer :=
  let l1 : Lexer :=
    let label := labelRe.FindString line
    if label ≠ [] then
      let trimmed := TrimSpace label
      if trimmed ≠ [] then
        { l with Lines := l.Lines ++ [⟨l.Line, LABEL, trimmed⟩] }
      else l
    else if directiveRe.MatchString line then
      let trimmed := TrimSpace line
      if trimmed ≠ [] then
        { l with Lines := l.Lines ++ [⟨l.Line, DIRECTIVE, trimmed⟩] }
      else l
    else
      match commentRe.FindStringIndex line with
      | some loc =>
        let t := TrimSpace (line.take loc.1)
        if t ≠ [] then
          { l with Lines := l.Lines ++ [⟨l.Line, OP, t⟩] }
        else l
      | none =>
        if line ≠ [] then
          let t := TrimSpace line
          { l with Lines := l.Lines ++ [⟨l.Line, OP, t⟩] }
        else l
  { l1 with Line := l1.Line + 1 }

/-- The `for l.Scanner.Scan()` loop: every successful `Scan` hands over the
next pending line. -/
def linePassLoop : List GoString → Lexer → Lexer
  | [], l => l
  | line :: rest, l => linePassLoop rest (linePassBody l line)

/-- Go `linePass`.  The loop ends when `Scan` returns false, at which point the
scanner has no pending line and has recorded the reader's fault, if any; the
function then executes `return nil`. -/
def linePass (l : Lexer) : Lexer × Option GoError :=
  let l1 := linePassLoop l.Scanner.pending l
  ({ l1 with Scanner := ⟨[], l.Scanner.fault, l.Scanner.fault⟩ }, none)

/-- Go `Lex`. -/
def Lex (l : Lexer) : Lexer × Option GoError :=
  linePass l

/-- The records one loop iteration appends when the counter is `idx` and the
scanned text is `line`: the loop body run from a lexer with no records. -/
def lineRecords (idx : Nat) (line : GoString) : List Line :=
  (linePassBody ⟨idx, ⟨[], none, none⟩, []⟩ line).Lines

/-- The records the loop appends for the lines `lines` when it starts with the
counter at `idx`. -/
def loopRecords : Nat → List GoString → List Line
  | _, [] => []
  | idx, line :: rest => lineRecords idx line ++ loopRecords (idx + 1) rest

/-! ## Textual rendering -/

/-- The verb `%d` of `fmt.Sprintf` applied to a non-negative `int`. -/
def fmtInt (n : Nat) : GoString := (Nat.repr n).toList

/-- The verb `%v` of `fmt.Sprintf` applied to a `Token`.  `Token` has a `String`
method, so `fmt` prints what that method returns; when the method panics (the
index is outside the `tokens` slice) `fmt` recovers the panic and prints, in
place of the name, the notice
`%!v(PANIC=String method: runtime error: index out of range [t] with length 12)`
(the wording of Go 1.13 and later). -/
def fmtToken (t : Token) : GoString :=
  match Token.String t with
  | some name => name
  | none =>
    "%!v(PANIC=String method: runtime error: index out of range [".toList ++ fmtInt t ++
      "] with length ".toList ++ fmtInt tokens.length ++ [')']

/-- Go `func (l *Lexer) String() string`: the summary line, then one
`Sprintf("%d %v %s\n", d.Index, d.Type, d.Value)` per record, appended in the
order of `Lines`. -/
def Lexer.String (l : Lexer) : GoString :=
  l.Lines.foldl
    (fun s d => s ++ (fmtInt d.Index ++ [' '] ++ fmtToken d.Typ ++ [' '] ++ d.Value ++ ['\n']))
    ("lines lexed: ".toList ++ fmtInt l.Line ++ ['\n'])

/-! ## Languages of the patterns -/

/-- The strings matched as a whole by `^\w+:$`: one or more word characters
followed by a single colon. -/
def LabelShape (s : GoString) : Prop :=
  ∃ w : GoString, w ≠ [] ∧ (∀ c ∈ w, isWordChar c = true) ∧ s = w ++ [':']

/-- The strings with a match of `^\s*\.[a-z]*`: a run of `\s` characters, then
a `.`, then anything. -/
def DirectiveShape (s : GoString) : Prop :=
  ∃ ws rest : GoString, (∀ c ∈ ws, isReSpace c = true) ∧ s = ws ++ '.' :: rest

/-! ## Shape of the rendering -/

/-- The summary line written by the first `Sprintf` of `String`, for the
counter value `n`. -/
def summaryLine (n : Nat) : GoString :=
  "lines lexed: ".toList ++ fmtInt n ++ ['\n']

/-- One rendered record: Index in decimal, a space, the text `name` printed for
the type, a space, the Value, a newline. -/
def recordLine (d : Line) (name : GoString) : GoString :=
  fmtInt d.Index ++ [' '] ++ name ++ [' '] ++ d.Value ++ ['\n']

/-! ## The loop with the two first rules swapped -/

/-- The loop body with the directive rule tried before the label rule; the
branches themselves are those of `linePassBody`. -/
def linePassBodyDirectiveFirst (l : Lexer) (line : GoString) : Lexer :=
  let l1 : Lexer :=
    if directiveRe.MatchString line then
      let trimmed := TrimSpace line
      if trimmed ≠ [] then
        { l with Lines := l.Lines ++ [⟨l.Line, DIRECTIVE, trimmed⟩] }
      else l
    else
      let label := labelRe.FindString line
      if label ≠ [] then
        let trimmed := TrimSpace label
        if trimmed ≠ [] then
          { l with Lines := l.Lines ++ [⟨l.Line, LABEL, trimmed⟩] }
        else l
      else
        match commentRe.FindStringIndex line with
        | some loc =>
          let t := TrimSpace (line.take loc.1)
          if t ≠ [] then
            { l with Lines := l.Lines ++ [⟨l.Line, OP, t⟩] }
          else l
        | none =>
          if line ≠ [] then
            let t := TrimSpace line
            { l with Lines := l.Lines ++ [⟨l.Line, OP, t⟩] }
          else l
  { l1 with Line := l1.Line + 1 }

/-- The scanning loop over `linePassBodyDirectiveFirst`. -/
def linePassLoopDirectiveFirst : List GoString → Lexer → Lexer
  | [], l => l
  | line :: rest, l => linePassLoopDirectiveFirst rest (linePassBodyDirectiveFirst l line)

/-- The record `r` with its Index moved up by `k`. -/
def shiftIndex (k : Nat) (r : Line) : Line :=
  { r with Index := r.Index + k }

/-! ## Character facts -/

theorem isWordChar_not_IsSpace {c : Char} (h : isWordChar c = true) : IsSpace c = false := by
  rw [Bool.eq_false_iff]
  intro h2
  simp only [isWordChar, IsSpace, Bool.or_eq_true, Bool.and_eq_true, decide_eq_true_eq,
    beq_iff_eq] at h h2
  omega

theorem isReSpace_IsSpace {c : Char} (h : isReSpace c = true) : IsSpace c = true := by
  simp only [isReSpace, IsSpace, Bool.or_eq_true, Bool.and_eq_true, decide_eq_true_eq,
    beq_iff_eq] at h ⊢
  omega

theorem colon_not_IsSpace : IsSpace ':' = false := by decide

theorem colon_not_isWordChar : isWordChar ':' = false := by decide

theorem dot_not_IsSpace : IsSpace '.' = false := by decide

theorem dot_not_isReSpace : isReSpace '.' = false := by decide

theorem dot_not_isWordChar : isWordChar '.' = false := by decide

theorem semi_not_IsSpace : IsSpace ';' = false := by decide

theorem semi_not_isWordChar : isWordChar ';' = false := by decide

/-! ## `TrimSpace` -/

theorem TrimSpace_nil : TrimSpace [] = [] := by
  simp [TrimSpace]

/-- A string of spaces trims to the empty string. -/
theorem TrimSpace_eq_nil_of_all {s : GoString} (h : ∀ c ∈ s, IsSpace c = true) :
    TrimSpace s = [] := by
  have : s.dropWhile IsSpace = [] := List.dropWhile_eq_nil_iff.mpr h
  simp [TrimSpace, this]

/-- A string that neither starts nor ends with a space is left alone. -/
theorem TrimSpace_eq_self {a b : Char} {m : GoString} (ha : IsSpace a = false)
    (hb : IsSpace b = false) : TrimSpace (a :: (m ++ [b])) = a :: (m ++ [b]) := by
  have h1 : (a :: (m ++ [b])).dropWhile IsSpace = a :: (m ++ [b]) := by
    simp [List.dropWhile_cons, ha]
  have h2 : (a :: (m ++ [b])).rdropWhile IsSpace = a :: (m ++ [b]) := by
    rw [← List.cons_append]
    exact List.rdropWhile_concat_neg _ _ _ (by simp [hb])
  rw [TrimSpace, h1, h2]

/-- Every string is its trimmed form between two runs of spaces. -/
theorem TrimSpace_decomp (s : GoString) :
    ∃ ws1 ws2 : GoString, (∀ c ∈ ws1, IsSpace c = true) ∧ (∀ c ∈ ws2, IsSpace c = true) ∧
      s = ws1 ++ TrimSpace s ++ ws2 := by
  refine ⟨s.takeWhile IsSpace, (s.dropWhile IsSpace).rtakeWhile IsSpace, ?_, ?_, ?_⟩
  · intro c hc
    exact List.mem_takeWhile_imp hc
  · intro c hc
    exact List.mem_rtakeWhile_imp hc
  · have h : ∀ t : GoString, t.rdropWhile IsSpace ++ t.rtakeWhile IsSpace = t := by
      intro t
      rw [List.rdropWhile, List.rtakeWhile, ← List.reverse_append,
        List.takeWhile_append_dropWhile, List.reverse_reverse]
    rw [TrimSpace, List.append_assoc, h, List.takeWhile_append_dropWhile]

/-- A string with a non-space character does not trim to the empty string. -/
theorem TrimSpace_ne_nil_of_mem {s : GoString} {c : Char} (hc : c ∈ s)
    (hns : IsSpace c = false) : TrimSpace s ≠ [] := by
  intro h
  obtain ⟨ws1, ws2, h1, h2, hs⟩ := TrimSpace_decomp s
  rw [h, List.append_nil] at hs
  rw [hs, List.mem_append] at hc
  rcases hc with hc | hc
  · rw [h1 c hc] at hns
    exact Bool.noConfusion hns
  · rw [h2 c hc] at hns
    exact Bool.noConfusion hns

/-! ## The patterns match exactly their languages -/

theorem LabelShape_ne_nil {s : GoString} (h : LabelShape s) : s ≠ [] := by
  obtain ⟨w, _, _, rfl⟩ := h
  simp

theorem labelRe_FindString_of_shape {line : GoString} (h : LabelShape line) :
    labelRe.FindString line = line := by
  obtain ⟨w, hne, hw, rfl⟩ := h
  have h1 : (w ++ [':']).takeWhile isWordChar = w := by
    rw [List.takeWhile_append_of_pos hw]
    simp [List.takeWhile, colon_not_isWordChar]
  have h2 : (w ++ [':']).dropWhile isWordChar = [':'] := by
    rw [List.dropWhile_append_of_pos hw]
    simp [List.dropWhile, colon_not_isWordChar]
  rw [labelRe.FindString, h1, h2, if_pos ⟨hne, rfl⟩]

theorem labelRe_FindString_of_not_shape {line : GoString} (h : ¬ LabelShape line) :
    labelRe.FindString line = [] := by
  rw [labelRe.FindString, if_neg]
  rintro ⟨h1, h2⟩
  apply h
  refine ⟨line.takeWhile isWordChar, h1, fun c hc => List.mem_takeWhile_imp hc, ?_⟩
  rw [← h2, List.takeWhile_append_dropWhile]

theorem directiveRe_MatchString_of_shape {line : GoString} (h : DirectiveShape line) :
    directiveRe.MatchString line = true := by
  obtain ⟨ws, rest, hws, rfl⟩ := h
  rw [directiveRe.MatchString, List.dropWhile_append_of_pos hws,
    List.dropWhile_cons_of_neg (by simp [dot_not_isReSpace])]
  rfl

theorem directiveRe_MatchString_of_not_shape {line : GoString} (h : ¬ DirectiveShape line) :
    directiveRe.MatchString line = false := by
  rw [Bool.eq_false_iff]
  intro hm
  apply h
  rw [directiveRe.MatchString, beq_iff_eq] at hm
  cases hd : line.dropWhile isReSpace with
  | nil => rw [hd] at hm; exact absurd hm (by simp)
  | cons a rest =>
    rw [hd, List.head?_cons, Option.some.injEq] at hm
    refine ⟨line.takeWhile isReSpace, rest, fun c hc => List.mem_takeWhile_imp hc, ?_⟩
    rw [← hm, ← hd, List.takeWhile_append_dropWhile]

/-- A label line is not a directive line: it starts with a word character. -/
theorem LabelShape_not_DirectiveShape {s : GoString} (h : LabelShape s) : ¬ DirectiveShape s := by
  obtain ⟨w, hne, hw, rfl⟩ := h
  rintro ⟨ws, rest, hws, heq⟩
  cases w with
  | nil => exact hne rfl
  | cons a w =>
    have ha : isWordChar a = true := hw a (List.mem_cons_self _ _)
    cases ws with
    | nil =>
      simp only [List.nil_append, List.cons_append, List.cons.injEq] at heq
      rw [heq.1, dot_not_isWordChar] at ha
      exact Bool.noConfusion ha
    | cons b ws =>
      simp only [List.cons_append, List.cons.injEq] at heq
      have hb : isReSpace b = true := hws b (List.mem_cons_self _ _)
      rw [← heq.1] at hb
      have := isWordChar_not_IsSpace ha
      rw [isReSpace_IsSpace hb] at this
      exact Bool.noConfusion this

theorem indexSemi_append {pre : GoString} (post : GoString) (h : ';' ∉ pre) :
    indexSemi (pre ++ ';' :: post) = some pre.length := by
  induction pre with
  | nil => simp [indexSemi]
  | cons a pre ih =>
    have ha : a ≠ ';' := fun e => h (e ▸ List.mem_cons_self _ _)
    have hp : ';' ∉ pre := fun e => h (List.mem_cons_of_mem _ e)
    simp [indexSemi, ha, ih hp]

theorem indexSemi_eq_none {s : GoString} (h : ';' ∉ s) : indexSemi s = none := by
  induction s with
  | nil => rfl
  | cons a s ih =>
    have ha : a ≠ ';' := fun e => h (e ▸ List.mem_cons_self _ _)
    have hp : ';' ∉ s := fun e => h (List.mem_cons_of_mem _ e)
    simp [indexSemi, ha, ih hp]

theorem commentRe_FindStringIndex_append {pre : GoString} (post : GoString) (h : ';' ∉ pre) :
    ∃ e, commentRe.FindStringIndex (pre ++ ';' :: post) = some (pre.length, e) := by
  simp [commentRe.FindStringIndex, indexSemi_append post h]

theorem commentRe_FindStringIndex_eq_none {s : GoString} (h : ';' ∉ s) :
    commentRe.FindStringIndex s = none := by
  simp [commentRe.FindStringIndex, indexSemi_eq_none h]

/-! ## One loop iteration, branch by branch -/

theorem linePassBody_Line (l : Lexer) (line : GoString) :
    (linePassBody l line).Line = l.Line + 1 := by
  unfold linePassBody
  simp only []
  by_cases h6 : line = []
  · subst h6
    rfl
  · by_cases h1 : labelRe.FindString line = []
    · by_cases h3 : directiveRe.MatchString line = true
      · by_cases h4 : TrimSpace line = [] <;> simp [h1, h3, h4]
      · cases h5 : commentRe.FindStringIndex line with
        | none => simp [h1, h3, h6]
        | some loc => by_cases h7 : TrimSpace (line.take loc.1) = [] <;> simp [h1, h3, h7]
    · by_cases h2 : TrimSpace (labelRe.FindString line) = [] <;> simp [h1, h2]

theorem linePassBody_label (l : Lexer) {line : GoString} (h : LabelShape line) :
    (linePassBody l line).Lines = l.Lines ++ [⟨l.Line, LABEL, line⟩] := by
  have hne : line ≠ [] := LabelShape_ne_nil h
  have htrim : TrimSpace line = line := by
    obtain ⟨w, hw0, hw, rfl⟩ := h
    cases w with
    | nil => exact absurd rfl hw0
    | cons a w =>
      exact TrimSpace_eq_self (isWordChar_not_IsSpace (hw a (List.mem_cons_self _ _)))
        colon_not_IsSpace
  simp [linePassBody, labelRe_FindString_of_shape h, htrim, hne]

theorem linePassBody_directive (l : Lexer) {line : GoString} (h : DirectiveShape line) :
    (linePassBody l line).Lines = l.Lines ++ [⟨l.Line, DIRECTIVE, TrimSpace line⟩] := by
  have hlab : ¬ LabelShape line := fun hl => LabelShape_not_DirectiveShape hl h
  have htrim : TrimSpace line ≠ [] := by
    obtain ⟨ws, rest, _, rfl⟩ := h
    exact TrimSpace_ne_nil_of_mem (c := '.') (by simp) dot_not_IsSpace
  simp [linePassBody, labelRe_FindString_of_not_shape hlab,
    directiveRe_MatchString_of_shape h, htrim]

theorem linePassBody_comment (l : Lexer) {pre : GoString} (post : GoString)
    (hlab : ¬ LabelShape (pre ++ ';' :: post)) (hdir : ¬ DirectiveShape (pre ++ ';' :: post))
    (hpre : ';' ∉ pre) :
    (linePassBody l (pre ++ ';' :: post)).Lines =
      l.Lines ++ (if TrimSpace pre = [] then [] else [⟨l.Line, OP, TrimSpace pre⟩]) := by
  obtain ⟨e, he⟩ := commentRe_FindStringIndex_append post hpre
  simp only [linePassBody, labelRe_FindString_of_not_shape hlab,
    directiveRe_MatchString_of_not_shape hdir, he, ne_eq, not_true_eq_false, if_false,
    Bool.false_eq_true, List.take_left]
  by_cases ht : TrimSpace pre = [] <;> simp [ht]

theorem linePassBody_plain (l : Lexer) {line : GoString} (hlab : ¬ LabelShape line)
    (hdir : ¬ DirectiveShape line) (hsemi : ';' ∉ line) (hne : line ≠ []) :
    (linePassBody l line).Lines = l.Lines ++ [⟨l.Line, OP, TrimSpace line⟩] := by
  simp [linePassBody, labelRe_FindString_of_not_shape hlab,
    directiveRe_MatchString_of_not_shape hdir, commentRe_FindStringIndex_eq_none hsemi, hne]

theorem linePassBody_nil (l : Lexer) : (linePassBody l []).Lines = l.Lines := by
  rfl

/-! ## The loop as a whole -/

theorem linePassBody_Lines (l : Lexer) (line : GoString) :
    (linePassBody l line).Lines = l.Lines ++ lineRecords l.Line line := by
  unfold lineRecords linePassBody
  simp only []
  by_cases h6 : line = []
  · subst h6
    show l.Lines = l.Lines ++ []
    simp
  · by_cases h1 : labelRe.FindString line = []
    · by_cases h3 : directiveRe.MatchString line = true
      · by_cases h4 : TrimSpace line = [] <;> simp [h1, h3, h4]
      · cases h5 : commentRe.FindStringIndex line with
        | none => simp [h1, h3, h6]
        | some loc => by_cases h7 : TrimSpace (line.take loc.1) = [] <;> simp [h1, h3, h7]
    · by_cases h2 : TrimSpace (labelRe.FindString line) = [] <;> simp [h1, h2]

/-- One line gives no record or exactly one, numbered by the counter and of
type `LABEL`, `DIRECTIVE` or `OP`. -/
theorem lineRecords_cases (idx : Nat) (line : GoString) :
    lineRecords idx line = [] ∨
      ∃ t v, (t = LABEL ∨ t = DIRECTIVE ∨ t = OP) ∧ lineRecords idx line = [⟨idx, t, v⟩] := by
  unfold lineRecords linePassBody
  simp only []
  by_cases h6 : line = []
  · subst h6
    left
    rfl
  · by_cases h1 : labelRe.FindString line = []
    · by_cases h3 : directiveRe.MatchString line = true
      · by_cases h4 : TrimSpace line = [] <;> simp [h1, h3, h4]
      · cases h5 : commentRe.FindStringIndex line with
        | none => simp [h1, h3, h6]
        | some loc => by_cases h7 : TrimSpace (line.take loc.1) = [] <;> simp [h1, h3, h7]
    · by_cases h2 : TrimSpace (labelRe.FindString line) = [] <;> simp [h1, h2]

theorem lineRecords_eq_singleton {idx : Nat} {line : GoString} {r : Line}
    (h : r ∈ lineRecords idx line) : lineRecords idx line = [r] ∧ r.Index = idx := by
  rcases lineRecords_cases idx line with h0 | ⟨t, v, _, h1⟩
  · rw [h0] at h
    exact absurd h (List.not_mem_nil _)
  · rw [h1, List.mem_singleton] at h
    subst h
    exact ⟨h1, rfl⟩

theorem lineRecords_length_le (idx : Nat) (line : GoString) :
    (lineRecords idx line).length ≤ 1 := by
  rcases lineRecords_cases idx line with h0 | ⟨t, v, _, h1⟩
  · simp [h0]
  · simp [h1]

theorem linePassLoop_Lines (lines : List GoString) (l : Lexer) :
    (linePassLoop lines l).Lines = l.Lines ++ loopRecords l.Line lines := by
  induction lines generalizing l with
  | nil => simp [linePassLoop, loopRecords]
  | cons line rest ih =>
    rw [linePassLoop, ih, linePassBody_Lines, linePassBody_Line, loopRecords,
      List.append_assoc]

theorem linePassLoop_Line (lines : List GoString) (l : Lexer) :
    (linePassLoop lines l).Line = l.Line + lines.length := by
  induction lines generalizing l with
  | nil => simp [linePassLoop]
  | cons line rest ih =>
    rw [linePassLoop, ih, linePassBody_Line, List.length_cons]
    omega

theorem Lex_Lines (reader : Reader) :
    (Lex (NewLexer reader)).1.Lines = loopRecords 1 reader.lines := by
  simp [Lex, linePass, NewLexer, NewScanner, linePassLoop_Lines]

theorem Lex_Line (reader : Reader) :
    (Lex (NewLexer reader)).1.Line = reader.lines.length + 1 := by
  simp [Lex, linePass, NewLexer, NewScanner, linePassLoop_Line]
  omega

theorem loopRecords_length_le (idx : Nat) (lines : List GoString) :
    (loopRecords idx lines).length ≤ lines.length := by
  induction lines generalizing idx with
  | nil => simp [loopRecords]
  | cons line rest ih =>
    have h1 := lineRecords_length_le idx line
    have h2 := ih (idx + 1)
    simp only [loopRecords, List.length_append, List.length_cons]
    omega

/-- A record of the loop carries the position of a line that alone produces it. -/
theorem loopRecords_mem {idx : Nat} {lines : List GoString} {r : Line}
    (h : r ∈ loopRecords idx lines) :
    idx ≤ r.Index ∧ ∃ line, lines[r.Index - idx]? = some line ∧ lineRecords r.Index line = [r] := by
  induction lines generalizing idx with
  | nil => simp [loopRecords] at h
  | cons line rest ih =>
    rw [loopRecords, List.mem_append] at h
    rcases h with h | h
    · obtain ⟨h1, h2⟩ := lineRecords_eq_singleton h
      refine ⟨by omega, line, ?_, ?_⟩
      · simp [h2]
      · rw [h2]; exact h1
    · obtain ⟨h1, line2, h2, h3⟩ := ih h
      refine ⟨by omega, line2, ?_, h3⟩
      have : r.Index - idx = (r.Index - (idx + 1)) + 1 := by omega
      rw [this, List.getElem?_cons_succ]
      exact h2

theorem loopRecords_sorted (idx : Nat) (lines : List GoString) :
    ((loopRecords idx lines).map Line.Index).Sorted (· < ·) := by
  induction lines generalizing idx with
  | nil => simp [loopRecords]
  | cons line rest ih =>
    rw [loopRecords, List.map_append, List.Sorted, List.pairwise_append]
    refine ⟨?_, ih (idx + 1), ?_⟩
    · rcases lineRecords_cases idx line with h0 | ⟨t, v, _, h1⟩
      · simp [h0]
      · simp [h1]
    · intro a ha b hb
      rw [List.mem_map] at ha hb
      obtain ⟨ra, hra, rfl⟩ := ha
      obtain ⟨rb, hrb, rfl⟩ := hb
      have h1 := (lineRecords_eq_singleton hra).2
      have h2 := (loopRecords_mem hrb).1
      omega

theorem loopRecords_Typ {idx : Nat} {lines : List GoString} {r : Line}
    (h : r ∈ loopRecords idx lines) : r.Typ = LABEL ∨ r.Typ = DIRECTIVE ∨ r.Typ = OP := by
  obtain ⟨_, line, _, h1⟩ := loopRecords_mem h
  rcases lineRecords_cases r.Index line with h0 | ⟨t, v, ht, h2⟩
  · rw [h0] at h1
    exact absurd h1 (by simp)
  · rw [h2, List.cons.injEq] at h1
    rw [← h1.1]
    exact ht

/-! ## More on trimming -/

theorem rdropWhile_cons_of_neg {p : Char → Bool} {a : Char} (h : p a = false) (s : GoString) :
    (a :: s).rdropWhile p = a :: s.rdropWhile p := by
  induction s using List.reverseRecOn with
  | nil => simp [List.rdropWhile_singleton, h]
  | append_singleton s x ih =>
    rw [← List.cons_append, List.rdropWhile_concat, List.rdropWhile_concat, ih]
    by_cases hx : p x = true <;> simp [hx]

/-- Trimming a directive line removes the leading run of spaces and keeps the
dot and all that follows it up to the trailing spaces. -/
theorem TrimSpace_dot {ws : GoString} (rest : GoString) (h : ∀ c ∈ ws, IsSpace c = true) :
    TrimSpace (ws ++ '.' :: rest) = '.' :: rest.rdropWhile IsSpace := by
  rw [TrimSpace, List.dropWhile_append_of_pos h,
    List.dropWhile_cons_of_neg (by simp [dot_not_IsSpace]),
    rdropWhile_cons_of_neg dot_not_IsSpace]

theorem LabelShape_TrimSpace {s : GoString} (h : LabelShape s) : TrimSpace s = s := by
  obtain ⟨w, hw0, hw, rfl⟩ := h
  cases w with
  | nil => exact absurd rfl hw0
  | cons a w =>
    exact TrimSpace_eq_self (isWordChar_not_IsSpace (hw a (List.mem_cons_self _ _)))
      colon_not_IsSpace

/-- No character of a label-shaped string is a space, a dot or a semicolon. -/
theorem LabelShape_mem {s : GoString} (h : LabelShape s) {c : Char} (hc : c ∈ s) :
    isWordChar c = true ∨ c = ':' := by
  obtain ⟨w, _, hw, rfl⟩ := h
  rw [List.mem_append, List.mem_singleton] at hc
  exact hc.imp (hw c) id

theorem not_DirectiveShape_of_trimmed_label {line : GoString}
    (h : LabelShape (TrimSpace line)) : ¬ DirectiveShape line := by
  rintro ⟨ws, rest, hws, rfl⟩
  rw [TrimSpace_dot rest (fun c hc => isReSpace_IsSpace (hws c hc))] at h
  obtain ⟨w, hw0, hw, heq⟩ := h
  cases w with
  | nil => exact hw0 rfl
  | cons a w =>
    simp only [List.cons_append, List.cons.injEq] at heq
    have ha := hw a (List.mem_cons_self _ _)
    rw [← heq.1, dot_not_isWordChar] at ha
    exact Bool.noConfusion ha

theorem semi_not_mem_of_trimmed_label {line : GoString}
    (h : LabelShape (TrimSpace line)) : ';' ∉ line := by
  intro hmem
  obtain ⟨ws1, ws2, h1, h2, hs⟩ := TrimSpace_decomp line
  rw [hs, List.mem_append, List.mem_append] at hmem
  rcases hmem with (hm | hm) | hm
  · have := h1 _ hm
    rw [semi_not_IsSpace] at this
    exact Bool.noConfusion this
  · rcases LabelShape_mem h hm with hw | hw
    · rw [semi_not_isWordChar] at hw
      exact Bool.noConfusion hw
    · exact absurd hw (by decide)
  · have := h2 _ hm
    rw [semi_not_IsSpace] at this
    exact Bool.noConfusion this

theorem lineRecords_not_directive {idx : Nat} {line : GoString} (h : ¬ DirectiveShape line) :
    ∀ r ∈ lineRecords idx line, r.Typ ≠ DIRECTIVE := by
  have h3 := directiveRe_MatchString_of_not_shape h
  unfold lineRecords linePassBody
  simp only []
  by_cases h6 : line = []
  · subst h6
    intro r hr
    exact absurd hr (List.not_mem_nil _)
  · by_cases h1 : labelRe.FindString line = []
    · cases h5 : commentRe.FindStringIndex line with
      | none => simp [h1, h3, h6, OP, DIRECTIVE]
      | some loc =>
        by_cases h7 : TrimSpace (line.take loc.1) = [] <;> simp [h1, h3, h7, OP, DIRECTIVE]
    · by_cases h2 : TrimSpace (labelRe.FindString line) = [] <;> simp [h1, h2, LABEL, DIRECTIVE]

/-! ## Rendering -/

/-- The loop of `String` appends the rendered records to what it starts from. -/
theorem foldl_render_eq (ds : List Line) (init : GoString) :
    ds.foldl
      (fun s d => s ++ (fmtInt d.Index ++ [' '] ++ fmtToken d.Typ ++ [' '] ++ d.Value ++ ['\n']))
      init
      = init ++ (ds.map fun d => recordLine d (fmtToken d.Typ)).flatten := by
  induction ds generalizing init with
  | nil => simp
  | cons d ds ih =>
    rw [List.foldl_cons, ih, List.map_cons, List.flatten_cons, List.append_assoc]
    rfl

theorem Lexer_String_eq (l : Lexer) :
    Lexer.String l =
      summaryLine l.Line ++ (l.Lines.map fun d => recordLine d (fmtToken d.Typ)).flatten := by
  unfold Lexer.String summaryLine
  exact foldl_render_eq l.Lines _

/-! ## Deciding the shapes on concrete lines -/

theorem not_LabelShape_of_FindString {line : GoString} (h : labelRe.FindString line = []) :
    ¬ LabelShape line := by
  intro hl
  rw [labelRe_FindString_of_shape hl] at h
  exact LabelShape_ne_nil hl h

theorem not_DirectiveShape_of_MatchString {line : GoString}
    (h : directiveRe.MatchString line = false) : ¬ DirectiveShape line := by
  intro hd
  rw [directiveRe_MatchString_of_shape hd] at h
  exact Bool.noConfusion h

/-! ## Claims -/

/-- C1. `Lex` on a fresh lexer over the five-line fixture (a label, an indented
directive, an operation with a comment, a comment-only line, an empty line)
leaves exactly three records: line 1 LABEL `loop:`, line 2 DIRECTIVE
`.org $8000`, line 3 OP `LDA #$01`. -/
theorem Lex_fixture :
    (Lex (NewLexer ⟨["loop:".toList, "  .org $8000".toList,
        "LDA #$01 ; load accumulator".toList, "; just a comment".toList, "".toList],
        none⟩)).1.Lines =
      [⟨1, LABEL, "loop:".toList⟩, ⟨2, DIRECTIVE, ".org $8000".toList⟩,
        ⟨3, OP, "LDA #$01".toList⟩] := by
  decide

/-- C2 (what the code does). A non-empty line made of whitespace only is not
skipped: the loop body appends an OP record with the empty string as Value for
it, and advances the counter by one. -/
theorem linePassBody_whitespace_only (l : Lexer) (line : GoString) (hne : line ≠ [])
    (hws : ∀ c ∈ line, IsSpace c = true) :
    (linePassBody l line).Lines = l.Lines ++ [⟨l.Line, OP, []⟩] ∧
      (linePassBody l line).Line = l.Line + 1 := by
  have hnot : ∀ c : Char, IsSpace c = false → c ∉ line := by
    intro c hc hmem
    rw [hws c hmem] at hc
    exact Bool.noConfusion hc
  have hlab : ¬ LabelShape line := by
    rintro ⟨w, _, _, rfl⟩
    exact hnot ':' colon_not_IsSpace (by simp)
  have hdir : ¬ DirectiveShape line := by
    rintro ⟨ws, rest, _, rfl⟩
    exact hnot '.' dot_not_IsSpace (by simp)
  refine ⟨?_, linePassBody_Line l line⟩
  rw [linePassBody_plain l hlab hdir (hnot ';' semi_not_IsSpace) hne,
    TrimSpace_eq_nil_of_all hws]

/-- Three spaces: one OP record with empty Value is appended. -/
theorem linePassBody_whitespace_only_witness :
    "   ".toList ≠ [] ∧ (∀ c ∈ "   ".toList, IsSpace c = true) ∧
      (linePassBody (NewLexer ⟨[], none⟩) "   ".toList).Lines =
        (NewLexer ⟨[], none⟩).Lines ++ [⟨(NewLexer ⟨[], none⟩).Line, OP, []⟩] ∧
      (linePassBody (NewLexer ⟨[], none⟩) "   ".toList).Line = (NewLexer ⟨[], none⟩).Line + 1 :=
  ⟨by decide, by decide,
    linePassBody_whitespace_only (NewLexer ⟨[], none⟩) "   ".toList (by decide) (by decide)⟩

/-- C3 (counterexample). The trimmed form of `  loop:` is a label shape, yet the
line is recorded as OP `loop:`, not as LABEL. -/
theorem trimmed_label_counterexample :
    LabelShape (TrimSpace "  loop:".toList) ∧
      (linePassBody (NewLexer ⟨[], none⟩) "  loop:".toList).Lines = [⟨1, OP, "loop:".toList⟩] ∧
      (linePassBody (NewLexer ⟨[], none⟩) "  loop:".toList).Lines ≠
        (NewLexer ⟨[], none⟩).Lines ++
          [⟨(NewLexer ⟨[], none⟩).Line, LABEL, TrimSpace "  loop:".toList⟩] :=
  ⟨⟨"loop".toList, by decide, by decide, by decide⟩, by decide, by decide⟩

/-- C3 (amended). A line whose trimmed form is one or more word characters
followed by a single colon yields exactly one record, whose Value is the
trimmed line; its type is LABEL when the line has no leading or trailing
whitespace (it equals its trimmed form) and OP otherwise. -/
theorem linePassBody_trimmed_label (l : Lexer) (line : GoString)
    (h : LabelShape (TrimSpace line)) :
    (linePassBody l line).Lines =
      l.Lines ++ [⟨l.Line, if line = TrimSpace line then LABEL else OP, TrimSpace line⟩] := by
  by_cases heq : line = TrimSpace line
  · rw [if_pos heq, ← heq]
    exact linePassBody_label l (heq ▸ h)
  · rw [if_neg heq]
    have hlab : ¬ LabelShape line := fun hl => heq (LabelShape_TrimSpace hl).symm
    have hne : line ≠ [] := by
      rintro rfl
      exact LabelShape_ne_nil h TrimSpace_nil
    exact linePassBody_plain l hlab (not_DirectiveShape_of_trimmed_label h)
      (semi_not_mem_of_trimmed_label h) hne

/-- The indented label `  loop:` becomes the record OP `loop:`. -/
theorem linePassBody_trimmed_label_witness :
    LabelShape (TrimSpace "  loop:".toList) ∧
      (linePassBody (NewLexer ⟨[], none⟩) "  loop:".toList).Lines =
        (NewLexer ⟨[], none⟩).Lines ++
          [⟨(NewLexer ⟨[], none⟩).Line,
            if "  loop:".toList = TrimSpace "  loop:".toList then LABEL else OP,
            TrimSpace "  loop:".toList⟩] :=
  ⟨⟨"loop".toList, by decide, by decide, by decide⟩,
    linePassBody_trimmed_label (NewLexer ⟨[], none⟩) "  loop:".toList
      ⟨"loop".toList, by decide, by decide, by decide⟩⟩

/-- C4. A line that is one or more word characters followed by a single colon,
with nothing around it, yields exactly one record: LABEL with the line itself
as Value. -/
theorem linePassBody_label_line (l : Lexer) (w : GoString) (hne : w ≠ [])
    (hw : ∀ c ∈ w, isWordChar c = true) :
    (linePassBody l (w ++ [':'])).Lines = l.Lines ++ [⟨l.Line, LABEL, w ++ [':']⟩] :=
  linePassBody_label l ⟨w, hne, hw, rfl⟩

/-- The line `loop:` becomes the record LABEL `loop:`. -/
theorem linePassBody_label_line_witness :
    "loop".toList ≠ [] ∧ (∀ c ∈ "loop".toList, isWordChar c = true) ∧
      (linePassBody (NewLexer ⟨[], none⟩) ("loop".toList ++ [':'])).Lines =
        (NewLexer ⟨[], none⟩).Lines ++
          [⟨(NewLexer ⟨[], none⟩).Line, LABEL, "loop".toList ++ [':']⟩] :=
  ⟨by decide, by decide,
    linePassBody_label_line (NewLexer ⟨[], none⟩) "loop".toList (by decide) (by decide)⟩

/-- C5 (counterexample). In the line made of a vertical tab followed by
`.org $8000` the first character that is not whitespace is the dot, and
`TrimSpace` strips the vertical tab; yet the directive pattern does not match
(`\s` has no vertical tab) and the line is recorded as OP `.org $8000`, not as
a DIRECTIVE. -/
theorem directive_vertical_tab_counterexample :
    IsSpace (Char.ofNat 0x0B) = true ∧
      ((Char.ofNat 0x0B :: ".org $8000".toList).dropWhile IsSpace).head? = some '.' ∧
      TrimSpace (Char.ofNat 0x0B :: ".org $8000".toList) = ".org $8000".toList ∧
      (linePassBody (NewLexer ⟨[], none⟩) (Char.ofNat 0x0B :: ".org $8000".toList)).Lines =
        [⟨1, OP, ".org $8000".toList⟩] ∧
      (linePassBody (NewLexer ⟨[], none⟩) (Char.ofNat 0x0B :: ".org $8000".toList)).Lines ≠
        (NewLexer ⟨[], none⟩).Lines ++
          [⟨(NewLexer ⟨[], none⟩).Line, DIRECTIVE,
            TrimSpace (Char.ofNat 0x0B :: ".org $8000".toList)⟩] := by
  decide

/-- C5 (amended). A line made of a run of whitespace of the class `\s` of the
directive pattern (tab, newline, form feed, carriage return, space), then a
dot, then anything, yields exactly one record: DIRECTIVE with the whole
trimmed line as Value, that is the dot followed by everything after it up to
the trailing whitespace.  A line that is not of this form, such as one whose
dot comes after a vertical tab or a no-break space, yields no DIRECTIVE
record. -/
theorem linePassBody_directive_rule (l : Lexer) (line : GoString) :
    (∀ ws rest : GoString, (∀ c ∈ ws, isReSpace c = true) → line = ws ++ '.' :: rest →
      (linePassBody l line).Lines = l.Lines ++ [⟨l.Line, DIRECTIVE, TrimSpace line⟩] ∧
        TrimSpace line = '.' :: rest.rdropWhile IsSpace) ∧
    ((¬ ∃ ws rest : GoString, (∀ c ∈ ws, isReSpace c = true) ∧ line = ws ++ '.' :: rest) →
      ∃ new, (linePassBody l line).Lines = l.Lines ++ new ∧ ∀ r ∈ new, r.Typ ≠ DIRECTIVE) := by
  constructor
  · intro ws rest hws hline
    refine ⟨linePassBody_directive l ⟨ws, rest, hws, hline⟩, ?_⟩
    rw [hline]
    exact TrimSpace_dot rest (fun c hc => isReSpace_IsSpace (hws c hc))
  · intro hnot
    exact ⟨lineRecords l.Line line, linePassBody_Lines l line, lineRecords_not_directive hnot⟩

/-- The indented line `  .org $8000` becomes DIRECTIVE `.org $8000`, and the
line `NOP` yields no DIRECTIVE record. -/
theorem linePassBody_directive_rule_witness :
    ((∀ c ∈ "  ".toList, isReSpace c = true) ∧
      "  .org $8000".toList = "  ".toList ++ '.' :: "org $8000".toList ∧
      (linePassBody (NewLexer ⟨[], none⟩) "  .org $8000".toList).Lines =
        (NewLexer ⟨[], none⟩).Lines ++
          [⟨(NewLexer ⟨[], none⟩).Line, DIRECTIVE, TrimSpace "  .org $8000".toList⟩] ∧
      TrimSpace "  .org $8000".toList = '.' :: "org $8000".toList.rdropWhile IsSpace) ∧
    ((¬ ∃ ws rest : GoString, (∀ c ∈ ws, isReSpace c = true) ∧
        "NOP".toList = ws ++ '.' :: rest) ∧
      ∃ new, (linePassBody (NewLexer ⟨[], none⟩) "NOP".toList).Lines =
        (NewLexer ⟨[], none⟩).Lines ++ new ∧ ∀ r ∈ new, r.Typ ≠ DIRECTIVE) :=
  ⟨⟨by decide, by decide,
      (linePassBody_directive_rule (NewLexer ⟨[], none⟩) "  .org $8000".toList).1
        "  ".toList "org $8000".toList (by decide) (by decide)⟩,
    ⟨not_DirectiveShape_of_MatchString (by decide),
      (linePassBody_directive_rule (NewLexer ⟨[], none⟩) "NOP".toList).2
        (not_DirectiveShape_of_MatchString (by decide))⟩⟩

/-- C6. For a line that matches neither the label nor the directive pattern and
whose first `;` splits it into `pre` and `post`: when the trimmed `pre` is not
empty exactly one record, OP with the trimmed `pre` as Value, is appended; when
it is empty no record is appended. -/
theorem linePassBody_comment_rule (l : Lexer) (pre post : GoString)
    (hlab : ¬ LabelShape (pre ++ ';' :: post)) (hdir : ¬ DirectiveShape (pre ++ ';' :: post))
    (hpre : ';' ∉ pre) :
    (TrimSpace pre ≠ [] →
      (linePassBody l (pre ++ ';' :: post)).Lines = l.Lines ++ [⟨l.Line, OP, TrimSpace pre⟩]) ∧
    (TrimSpace pre = [] → (linePassBody l (pre ++ ';' :: post)).Lines = l.Lines) := by
  have h := linePassBody_comment l post hlab hdir hpre
  constructor
  · intro ht
    rw [h, if_neg ht]
  · intro ht
    rw [h, if_pos ht, List.append_nil]

/-- The line `LDA #$01 ; load accumulator` becomes OP `LDA #$01`, and the line
`; just a comment` leaves no record. -/
theorem linePassBody_comment_rule_witness :
    (¬ LabelShape ("LDA #$01 ".toList ++ ';' :: " load accumulator".toList) ∧
      ¬ DirectiveShape ("LDA #$01 ".toList ++ ';' :: " load accumulator".toList) ∧
      ';' ∉ "LDA #$01 ".toList ∧ TrimSpace "LDA #$01 ".toList ≠ [] ∧
      (linePassBody (NewLexer ⟨[], none⟩)
          ("LDA #$01 ".toList ++ ';' :: " load accumulator".toList)).Lines =
        (NewLexer ⟨[], none⟩).Lines ++
          [⟨(NewLexer ⟨[], none⟩).Line, OP, TrimSpace "LDA #$01 ".toList⟩]) ∧
    (¬ LabelShape ([] ++ ';' :: " just a comment".toList) ∧
      ¬ DirectiveShape ([] ++ ';' :: " just a comment".toList) ∧
      ';' ∉ ([] : GoString) ∧ TrimSpace [] = [] ∧
      (linePassBody (NewLexer ⟨[], none⟩) ([] ++ ';' :: " just a comment".toList)).Lines =
        (NewLexer ⟨[], none⟩).Lines) :=
  ⟨⟨not_LabelShape_of_FindString (by decide), not_DirectiveShape_of_MatchString (by decide),
      by decide, by decide,
      (linePassBody_comment_rule (NewLexer ⟨[], none⟩) "LDA #$01 ".toList
        " load accumulator".toList (not_LabelShape_of_FindString (by decide))
        (not_DirectiveShape_of_MatchString (by decide)) (by decide)).1 (by decide)⟩,
    ⟨not_LabelShape_of_FindString (by decide), not_DirectiveShape_of_MatchString (by decide),
      by decide, by decide,
      (linePassBody_comment_rule (NewLexer ⟨[], none⟩) [] " just a comment".toList
        (not_LabelShape_of_FindString (by decide))
        (not_DirectiveShape_of_MatchString (by decide)) (by decide)).2 (by decide)⟩⟩

/-- C7. A line that matches neither the label nor the directive pattern, has no
`;` and is not made of whitespace only (some character is outside the class
`\s`, which holds in particular when some character is not a Unicode space)
yields exactly one record: OP with the trimmed line as Value. -/
theorem linePassBody_plain_rule (l : Lexer) (line : GoString) (hlab : ¬ LabelShape line)
    (hdir : ¬ DirectiveShape line) (hsemi : ';' ∉ line)
    (hws : ∃ c ∈ line, isReSpace c = false) :
    (linePassBody l line).Lines = l.Lines ++ [⟨l.Line, OP, TrimSpace line⟩] := by
  have hne : line ≠ [] := by
    rintro rfl
    obtain ⟨c, hc, _⟩ := hws
    exact absurd hc (List.not_mem_nil _)
  exact linePassBody_plain l hlab hdir hsemi hne

/-- The line `  LDA #$01` becomes OP `LDA #$01`. -/
theorem linePassBody_plain_rule_witness :
    ¬ LabelShape "  LDA #$01".toList ∧ ¬ DirectiveShape "  LDA #$01".toList ∧
      ';' ∉ "  LDA #$01".toList ∧ (∃ c ∈ "  LDA #$01".toList, isReSpace c = false) ∧
      (linePassBody (NewLexer ⟨[], none⟩) "  LDA #$01".toList).Lines =
        (NewLexer ⟨[], none⟩).Lines ++
          [⟨(NewLexer ⟨[], none⟩).Line, OP, TrimSpace "  LDA #$01".toList⟩] :=
  ⟨not_LabelShape_of_FindString (by decide), not_DirectiveShape_of_MatchString (by decide),
    by decide, ⟨'L', by decide, by decide⟩,
    linePassBody_plain_rule (NewLexer ⟨[], none⟩) "  LDA #$01".toList
      (not_LabelShape_of_FindString (by decide)) (not_DirectiveShape_of_MatchString (by decide))
      (by decide) ⟨'L', by decide, by decide⟩⟩

/-- C8. After `Lex` on a fresh lexer there are at most as many records as the
reader delivered lines, and the Index values are strictly increasing along
`Lines`. -/
theorem Lex_records_bounded_increasing (reader : Reader) :
    (Lex (NewLexer reader)).1.Lines.length ≤ reader.lines.length ∧
      ((Lex (NewLexer reader)).1.Lines.map Line.Index).Sorted (· < ·) := by
  rw [Lex_Lines]
  exact ⟨loopRecords_length_le 1 reader.lines, loopRecords_sorted 1 reader.lines⟩

/-- C9. Every record left by `Lex` on a fresh lexer has as Index the 1-based
position of an input line, and it is exactly the record the loop body appends
for that line when the counter stands at that position. -/
theorem Lex_record_position (reader : Reader) (r : Line)
    (h : r ∈ (Lex (NewLexer reader)).1.Lines) :
    1 ≤ r.Index ∧ r.Index ≤ reader.lines.length ∧
      ∃ line, reader.lines[r.Index - 1]? = some line ∧
        ∀ l : Lexer, l.Line = r.Index → (linePassBody l line).Lines = l.Lines ++ [r] := by
  rw [Lex_Lines] at h
  obtain ⟨h1, line, h2, h3⟩ := loopRecords_mem h
  refine ⟨h1, ?_, line, h2, ?_⟩
  · have := (List.getElem?_eq_some_iff.mp h2).1
    omega
  · intro l hl
    rw [linePassBody_Lines, hl, h3]

/-- In the input `["", "NOP"]` the record OP `NOP` carries Index 2. -/
theorem Lex_record_position_witness :
    (⟨2, OP, "NOP".toList⟩ : Line) ∈ (Lex (NewLexer ⟨["".toList, "NOP".toList], none⟩)).1.Lines ∧
      1 ≤ (⟨2, OP, "NOP".toList⟩ : Line).Index ∧
      (⟨2, OP, "NOP".toList⟩ : Line).Index ≤
        (⟨["".toList, "NOP".toList], none⟩ : Reader).lines.length ∧
      ∃ line, (⟨["".toList, "NOP".toList], none⟩ : Reader).lines[
          (⟨2, OP, "NOP".toList⟩ : Line).Index - 1]? = some line ∧
        ∀ l : Lexer, l.Line = (⟨2, OP, "NOP".toList⟩ : Line).Index →
          (linePassBody l line).Lines = l.Lines ++ [⟨2, OP, "NOP".toList⟩] :=
  ⟨by decide,
    Lex_record_position ⟨["".toList, "NOP".toList], none⟩ ⟨2, OP, "NOP".toList⟩ (by decide)⟩

/-- C10 (what the code does). After `Lex` on a fresh lexer over `n` lines the
rendering starts with the summary line `lines lexed: ` followed by `n + 1` in
decimal, not `n`: the counter printed is the number of the next line.  For the
one-line input `NOP` the rendering is `lines lexed: 2` followed by the line
`1 OP NOP`. -/
theorem Lexer_String_summary_off_by_one :
    (∀ reader : Reader, ∃ body, Lexer.String (Lex (NewLexer reader)).1 =
      "lines lexed: ".toList ++ fmtInt (reader.lines.length + 1) ++ ['\n'] ++ body) ∧
    Lexer.String (Lex (NewLexer ⟨["NOP".toList], none⟩)).1 =
      "lines lexed: 2\n1 OP NOP\n".toList := by
  refine ⟨fun reader => ?_, by decide⟩
  refine ⟨((Lex (NewLexer reader)).1.Lines.map fun d => recordLine d (fmtToken d.Typ)).flatten,
    ?_⟩
  rw [Lexer_String_eq, Lex_Line]
  rfl

/-! ## Records of an arbitrary run -/

theorem Lex_Lines_append (l : Lexer) :
    (Lex l).1.Lines = l.Lines ++ loopRecords l.Line l.Scanner.pending := by
  simp [Lex, linePass, linePassLoop_Lines]

/-- A string containing a `;` splits at its first `;`. -/
theorem exists_first_semi {s : GoString} (h : ';' ∈ s) :
    ∃ pre post : GoString, s = pre ++ ';' :: post ∧ ';' ∉ pre := by
  induction s with
  | nil => exact absurd h (List.not_mem_nil _)
  | cons a s ih =>
    by_cases ha : a = ';'
    · exact ⟨[], s, by simp [ha], List.not_mem_nil _⟩
    · have hs : ';' ∈ s := by
        rcases List.mem_cons.mp h with h1 | h1
        · exact absurd h1.symm ha
        · exact h1
      obtain ⟨pre, post, hsplit, hpre⟩ := ih hs
      refine ⟨a :: pre, post, by rw [hsplit, List.cons_append], ?_⟩
      intro hmem
      rcases List.mem_cons.mp hmem with h1 | h1
      · exact ha h1.symm
      · exact hpre h1

/-- The records of one line, rule by rule, in terms of the shape of the line. -/
theorem lineRecords_by_shape (idx : Nat) (line : GoString) :
    (LabelShape line ∧ lineRecords idx line = [⟨idx, LABEL, line⟩]) ∨
    (¬ LabelShape line ∧ DirectiveShape line ∧
      lineRecords idx line = [⟨idx, DIRECTIVE, TrimSpace line⟩]) ∨
    (¬ LabelShape line ∧ ¬ DirectiveShape line ∧ ∃ pre post : GoString,
      line = pre ++ ';' :: post ∧ ';' ∉ pre ∧
      lineRecords idx line = if TrimSpace pre = [] then [] else [⟨idx, OP, TrimSpace pre⟩]) ∨
    (¬ LabelShape line ∧ ¬ DirectiveShape line ∧ ';' ∉ line ∧ line ≠ [] ∧
      lineRecords idx line = [⟨idx, OP, TrimSpace line⟩]) ∨
    (line = [] ∧ lineRecords idx line = []) := by
  by_cases hlab : LabelShape line
  · left
    exact ⟨hlab, by rw [lineRecords, linePassBody_label _ hlab]; rfl⟩
  · right
    by_cases hdir : DirectiveShape line
    · left
      exact ⟨hlab, hdir, by rw [lineRecords, linePassBody_directive _ hdir]; rfl⟩
    · right
      by_cases hsemi : ';' ∈ line
      · left
        obtain ⟨pre, post, hsplit, hpre⟩ := exists_first_semi hsemi
        refine ⟨hlab, hdir, pre, post, hsplit, hpre, ?_⟩
        subst hsplit
        rw [lineRecords, linePassBody_comment _ post hlab hdir hpre]
        rfl
      · right
        by_cases hne : line = []
        · right
          subst hne
          exact ⟨rfl, rfl⟩
        · left
          exact ⟨hlab, hdir, hsemi, hne,
            by rw [lineRecords, linePassBody_plain _ hlab hdir hsemi hne]; rfl⟩

/-- Every appended Value is the result of a `TrimSpace` call. -/
theorem lineRecords_Value {idx : Nat} {line : GoString} :
    ∀ r ∈ lineRecords idx line, ∃ x, r.Value = TrimSpace x := by
  intro r hr
  rcases lineRecords_by_shape idx line with ⟨hlab, h⟩ | ⟨_, _, h⟩ | ⟨_, _, pre, post, _, _, h⟩ |
    ⟨_, _, _, _, h⟩ | ⟨_, h⟩
  · rw [h, List.mem_singleton] at hr
    exact ⟨line, by rw [hr, LabelShape_TrimSpace hlab]⟩
  · rw [h, List.mem_singleton] at hr
    exact ⟨line, by rw [hr]⟩
  · by_cases ht : TrimSpace pre = []
    · rw [h, if_pos ht] at hr
      exact absurd hr (List.not_mem_nil _)
    · rw [h, if_neg ht, List.mem_singleton] at hr
      exact ⟨pre, by rw [hr]⟩
  · rw [h, List.mem_singleton] at hr
    exact ⟨line, by rw [hr]⟩
  · rw [h] at hr
    exact absurd hr (List.not_mem_nil _)

theorem loopRecords_Value {idx : Nat} {lines : List GoString} {r : Line}
    (h : r ∈ loopRecords idx lines) : ∃ x, r.Value = TrimSpace x := by
  obtain ⟨_, line, _, h1⟩ := loopRecords_mem h
  exact lineRecords_Value r (by rw [h1]; exact List.mem_singleton_self r)

theorem TrimSpace_head (s : GoString) {c : Char} (h : (TrimSpace s).head? = some c) :
    IsSpace c = false := by
  unfold TrimSpace at h
  cases hd : s.dropWhile IsSpace with
  | nil => simp [hd] at h
  | cons a m =>
    have ha : IsSpace a = false := by
      have := List.head?_dropWhile_not IsSpace s
      rw [hd] at this
      simpa using this
    rw [hd, rdropWhile_cons_of_neg ha, List.head?_cons, Option.some.injEq] at h
    rw [← h]
    exact ha

theorem TrimSpace_getLast (s : GoString) {c : Char} (h : (TrimSpace s).getLast? = some c) :
    IsSpace c = false := by
  unfold TrimSpace at h
  have hne : (s.dropWhile IsSpace).rdropWhile IsSpace ≠ [] := by
    intro h0
    rw [h0] at h
    simp at h
  have hlast := List.rdropWhile_last_not IsSpace (s.dropWhile IsSpace) hne
  rw [List.getLast?_eq_getLast _ hne, Option.some.injEq] at h
  rw [h] at hlast
  simpa using hlast

/-! ## Claims on names, categories, errors and trimmed values -/

/-- C11 (what the code does). `Token.String` returns the fixed name of eleven
of the twelve categories; for COMMA it returns the empty string, not `,`,
because the `tokens` table has no entry for COMMA. -/
theorem Token_String_names :
    Token.String EOF = some "EOF".toList ∧ Token.String ILLEGAL = some "ILLEGAL".toList ∧
    Token.String OP = some "OP".toList ∧ Token.String SEMI = some ";".toList ∧
    Token.String LABEL = some "LABEL".toList ∧ Token.String COMMENT = some "COMMENT".toList ∧
    Token.String BYTE = some "BYTE".toList ∧ Token.String WORD = some "WORD".toList ∧
    Token.String LITERAL = some "LITERAL".toList ∧ Token.String STRING = some "STRING".toList ∧
    Token.String DIRECTIVE = some "DIRECTIVE".toList ∧
    Token.String COMMA = some [] ∧ Token.String COMMA ≠ some ",".toList := by
  decide

/-- C12. Whatever the state `Lex` starts from, the records it appends all have
type LABEL, DIRECTIVE or OP; in particular none has type EOF. -/
theorem Lex_record_types (l : Lexer) :
    ∃ new : List Line, (Lex l).1.Lines = l.Lines ++ new ∧
      ∀ r ∈ new, (r.Typ = LABEL ∨ r.Typ = DIRECTIVE ∨ r.Typ = OP) ∧ r.Typ ≠ EOF := by
  refine ⟨loopRecords l.Line l.Scanner.pending, Lex_Lines_append l, ?_⟩
  intro r hr
  have h := loopRecords_Typ hr
  refine ⟨h, ?_⟩
  rcases h with h | h | h <;> rw [h] <;> decide

/-- C13 (what the code does). `Lex` returns `nil` for every reader, also when
the reader ends with a read fault: the fault stays recorded in the scanner and
is never looked at.  For the reader that delivers `NOP` and then fails, `Lex`
returns `nil` and leaves the record of line 1 in `Lines`. -/
theorem Lex_returns_nil_on_read_fault :
    (∀ reader : Reader, (Lex (NewLexer reader)).2 = none ∧
      (Lex (NewLexer reader)).1.Scanner.err = reader.fault) ∧
    (Lex (NewLexer ⟨["NOP".toList], some "read fault".toList⟩)).2 = none ∧
    (Lex (NewLexer ⟨["NOP".toList], some "read fault".toList⟩)).1.Lines =
      [⟨1, OP, "NOP".toList⟩] := by
  refine ⟨fun reader => ⟨rfl, rfl⟩, rfl, by decide⟩

/-- C14. The Value of every record left by `Lex` on a fresh lexer neither starts
nor ends with a whitespace character (in the sense of `unicode.IsSpace`, which
includes the class `\s`). -/
theorem Lex_record_value_trimmed (reader : Reader) (r : Line)
    (h : r ∈ (Lex (NewLexer reader)).1.Lines) :
    (∀ c, r.Value.head? = some c → IsSpace c = false) ∧
      (∀ c, r.Value.getLast? = some c → IsSpace c = false) := by
  rw [Lex_Lines] at h
  obtain ⟨x, hx⟩ := loopRecords_Value h
  rw [hx]
  exact ⟨fun c hc => TrimSpace_head x hc, fun c hc => TrimSpace_getLast x hc⟩

/-- The line `  LDA #$01  ` leaves the Value `LDA #$01`. -/
theorem Lex_record_value_trimmed_witness :
    (⟨1, OP, "LDA #$01".toList⟩ : Line) ∈
        (Lex (NewLexer ⟨["  LDA #$01  ".toList], none⟩)).1.Lines ∧
      (∀ c, (⟨1, OP, "LDA #$01".toList⟩ : Line).Value.head? = some c → IsSpace c = false) ∧
      (∀ c, (⟨1, OP, "LDA #$01".toList⟩ : Line).Value.getLast? = some c →
        IsSpace c = false) :=
  ⟨by decide,
    Lex_record_value_trimmed ⟨["  LDA #$01  ".toList], none⟩ ⟨1, OP, "LDA #$01".toList⟩
      (by decide)⟩

/-! ## Comment markers in values -/

theorem mem_of_mem_TrimSpace {s : GoString} {c : Char} (h : c ∈ TrimSpace s) : c ∈ s := by
  obtain ⟨ws1, ws2, _, _, hs⟩ := TrimSpace_decomp s
  rw [hs]
  simp [h]

theorem lineRecords_no_semi {idx : Nat} {line : GoString} {r : Line}
    (hr : r ∈ lineRecords idx line) (ht : r.Typ ≠ DIRECTIVE) : ';' ∉ r.Value := by
  rcases lineRecords_by_shape idx line with ⟨hlab, h⟩ | ⟨_, _, h⟩ | ⟨_, _, pre, post, _, hpre, h⟩ |
    ⟨_, _, hsemi, _, h⟩ | ⟨_, h⟩
  · rw [h, List.mem_singleton] at hr
    subst hr
    intro hmem
    rcases LabelShape_mem hlab hmem with hw | hw
    · rw [semi_not_isWordChar] at hw
      exact Bool.noConfusion hw
    · exact absurd hw (by decide)
  · rw [h, List.mem_singleton] at hr
    subst hr
    exact absurd rfl ht
  · by_cases htrim : TrimSpace pre = []
    · rw [h, if_pos htrim] at hr
      exact absurd hr (List.not_mem_nil _)
    · rw [h, if_neg htrim, List.mem_singleton] at hr
      subst hr
      exact fun hmem => hpre (mem_of_mem_TrimSpace hmem)
  · rw [h, List.mem_singleton] at hr
    subst hr
    exact fun hmem => hsemi (mem_of_mem_TrimSpace hmem)
  · rw [h] at hr
    exact absurd hr (List.not_mem_nil _)

/-! ## The rendering, record by record -/

theorem Token_String_of_le {t : Token} (h : t ≤ DIRECTIVE) :
    Token.String t = some (fmtToken t) := by
  have h11 : t ≤ 11 := h
  interval_cases t <;> rfl

theorem Token_String_of_gt {t : Token} (h : DIRECTIVE < t) : Token.String t = none := by
  have h12 : tokens.length ≤ t := h
  simp [Token.String, h12]

theorem fmtToken_of_gt {t : Token} (h : DIRECTIVE < t) :
    fmtToken t =
      "%!v(PANIC=String method: runtime error: index out of range [".toList ++ fmtInt t ++
        "] with length 12)".toList := by
  have htail : "] with length ".toList ++ (fmtInt tokens.length ++ [')']) =
      "] with length 12)".toList := by decide
  rw [fmtToken, Token_String_of_gt h]
  simp only [List.append_assoc]
  rw [htail]

/-! ## Claims on comment markers and on the rendering -/

/-- C15 (what the code does). The directive line `.org $8000 ; origin` is
recorded whole, comment included: the Value of its DIRECTIVE record contains
a `;`. -/
theorem directive_value_keeps_semi :
    (Lex (NewLexer ⟨[".org $8000 ; origin".toList], none⟩)).1.Lines =
        [⟨1, DIRECTIVE, ".org $8000 ; origin".toList⟩] ∧
      ¬ (∀ r ∈ (Lex (NewLexer ⟨[".org $8000 ; origin".toList], none⟩)).1.Lines,
        ';' ∉ r.Value) := by
  decide

/-- Outside the directive branch comments are removed: the Value of every
record of type OP or LABEL left by `Lex` on a fresh lexer contains no `;`. -/
theorem Lex_record_value_no_semi (reader : Reader) (r : Line)
    (h : r ∈ (Lex (NewLexer reader)).1.Lines) (ht : r.Typ ≠ DIRECTIVE) :
    ';' ∉ r.Value := by
  rw [Lex_Lines] at h
  obtain ⟨_, line, _, h1⟩ := loopRecords_mem h
  exact lineRecords_no_semi (by rw [h1]; exact List.mem_singleton_self r) ht

/-- C16 (counterexample). A lexer state holding one record whose type, 99, is
outside the `tokens` table: `Token.String` gives no name for it (it panics),
and the line rendered for the record carries the notice of `fmt` where a
category name would stand. -/
theorem Lexer_String_unnamed_type_counterexample :
    Token.String 99 = none ∧
      Lexer.String ⟨1, ⟨[], none, none⟩, [⟨1, 99, "x".toList⟩]⟩ =
        ("lines lexed: 1\n1 %!v(PANIC=String method: runtime error: " ++
          "index out of range [99] with length 12) x\n").toList := by
  decide

/-- C16 (amended). For every lexer state the text returned by `String` is the
summary line followed by one line per record of `Lines`, in order, each made of
the Index in decimal, a space, what `%v` prints for the type, a space, the
Value and a newline.  What `%v` prints is the name given by `Token.String` when
the type is one of the twelve categories, and otherwise, `Token.String` having
panicked, the notice
`%!v(PANIC=String method: runtime error: index out of range [t] with length 12)`. -/
theorem Lexer_String_format (l : Lexer) :
    Lexer.String l =
        summaryLine l.Line ++ (l.Lines.map fun d => recordLine d (fmtToken d.Typ)).flatten ∧
      (∀ d ∈ l.Lines, d.Typ ≤ DIRECTIVE → Token.String d.Typ = some (fmtToken d.Typ)) ∧
      (∀ d ∈ l.Lines, DIRECTIVE < d.Typ → Token.String d.Typ = none ∧
        fmtToken d.Typ =
          "%!v(PANIC=String method: runtime error: index out of range [".toList ++
            fmtInt d.Typ ++ "] with length 12)".toList) :=
  ⟨Lexer_String_eq l, fun _ _ h => Token_String_of_le h,
    fun _ _ h => ⟨Token_String_of_gt h, fmtToken_of_gt h⟩⟩

/-- A lexer holding a LABEL and an OP record renders as three lines, the types
printed by their names. -/
theorem Lexer_String_format_witness :
    Lexer.String ⟨3, ⟨[], none, none⟩, [⟨1, LABEL, "loop:".toList⟩, ⟨2, OP, "NOP".toList⟩]⟩ =
        "lines lexed: 3\n1 LABEL loop:\n2 OP NOP\n".toList ∧
      (⟨2, OP, "NOP".toList⟩ : Line) ∈
        (⟨3, ⟨[], none, none⟩, [⟨1, LABEL, "loop:".toList⟩, ⟨2, OP, "NOP".toList⟩]⟩ :
          Lexer).Lines ∧
      (⟨2, OP, "NOP".toList⟩ : Line).Typ ≤ DIRECTIVE ∧
      Token.String (⟨2, OP, "NOP".toList⟩ : Line).Typ =
        some (fmtToken (⟨2, OP, "NOP".toList⟩ : Line).Typ) :=
  ⟨by decide, by decide, by decide,
    (Lexer_String_format ⟨3, ⟨[], none, none⟩,
      [⟨1, LABEL, "loop:".toList⟩, ⟨2, OP, "NOP".toList⟩]⟩).2.1 ⟨2, OP, "NOP".toList⟩
      (by decide) (by decide)⟩

/-! ## Order of the two first rules -/

theorem LabelShape_of_FindString {line : GoString} (h : labelRe.FindString line ≠ []) :
    LabelShape line := by
  by_contra hn
  exact h (labelRe_FindString_of_not_shape hn)

theorem MatchString_false_of_FindString {line : GoString} (h : labelRe.FindString line ≠ []) :
    directiveRe.MatchString line = false :=
  directiveRe_MatchString_of_not_shape
    (LabelShape_not_DirectiveShape (LabelShape_of_FindString h))

theorem linePassBodyDirectiveFirst_eq (l : Lexer) (line : GoString) :
    linePassBodyDirectiveFirst l line = linePassBody l line := by
  unfold linePassBodyDirectiveFirst linePassBody
  by_cases hl : labelRe.FindString line = []
  · simp [hl]
  · have hd := MatchString_false_of_FindString hl
    simp [hl, hd]

theorem linePassLoopDirectiveFirst_eq (lines : List GoString) (l : Lexer) :
    linePassLoopDirectiveFirst lines l = linePassLoop lines l := by
  induction lines generalizing l with
  | nil => rfl
  | cons line rest ih =>
    rw [linePassLoopDirectiveFirst, linePassLoop, linePassBodyDirectiveFirst_eq, ih]

/-! ## The span of the comment pattern -/

theorem semi_not_mem_of_LabelShape {s : GoString} (h : LabelShape s) : ';' ∉ s := by
  intro hmem
  rcases LabelShape_mem h hmem with hw | hw
  · rw [semi_not_isWordChar] at hw
    exact Bool.noConfusion hw
  · exact absurd hw (by decide)

theorem takeWhile_span {span rest : GoString} (hspan : ∀ c ∈ span, isCommentChar c = true)
    (hrest : ∀ c, rest.head? = some c → isCommentChar c = false) :
    (span ++ rest).takeWhile isCommentChar = span := by
  rw [List.takeWhile_append_of_pos hspan]
  cases rest with
  | nil => simp
  | cons a rest =>
    have ha := hrest a rfl
    simp [List.takeWhile_cons, ha]

theorem commentRe_FindStringIndex_span {pre span rest : GoString} (hpre : ';' ∉ pre)
    (hspan : ∀ c ∈ span, isCommentChar c = true)
    (hrest : ∀ c, rest.head? = some c → isCommentChar c = false) :
    commentRe.FindStringIndex (pre ++ ';' :: (span ++ rest)) =
      some (pre.length, pre.length + 1 + span.length) := by
  have hdrop : (pre ++ ';' :: (span ++ rest)).drop (pre.length + 1) = span ++ rest := by
    rw [List.drop_append]
    rfl
  simp only [commentRe.FindStringIndex, indexSemi_append _ hpre, hdrop,
    takeWhile_span hspan hrest]

/-! ## Records and positions -/

/-- The type and Value recorded for a line do not depend on the counter. -/
theorem lineRecords_uniform (line : GoString) :
    ∃ tv : List (Token × GoString),
      ∀ idx, lineRecords idx line = tv.map (fun p => ⟨idx, p.1, p.2⟩) := by
  by_cases hlab : LabelShape line
  · exact ⟨[(LABEL, line)], fun idx => by rw [lineRecords, linePassBody_label _ hlab]; rfl⟩
  by_cases hdir : DirectiveShape line
  · exact ⟨[(DIRECTIVE, TrimSpace line)],
      fun idx => by rw [lineRecords, linePassBody_directive _ hdir]; rfl⟩
  by_cases hsemi : ';' ∈ line
  · obtain ⟨pre, post, hsplit, hpre⟩ := exists_first_semi hsemi
    subst hsplit
    by_cases ht : TrimSpace pre = []
    · exact ⟨[], fun idx => by
        rw [lineRecords, linePassBody_comment _ post hlab hdir hpre, if_pos ht]; rfl⟩
    · exact ⟨[(OP, TrimSpace pre)], fun idx => by
        rw [lineRecords, linePassBody_comment _ post hlab hdir hpre, if_neg ht]; rfl⟩
  by_cases hne : line = []
  · subst hne
    exact ⟨[], fun idx => rfl⟩
  · exact ⟨[(OP, TrimSpace line)],
      fun idx => by rw [lineRecords, linePassBody_plain _ hlab hdir hsemi hne]; rfl⟩

theorem lineRecords_shift (idx k : Nat) (line : GoString) :
    lineRecords (idx + k) line = (lineRecords idx line).map (shiftIndex k) := by
  obtain ⟨tv, h⟩ := lineRecords_uniform line
  rw [h (idx + k), h idx, List.map_map]
  rfl

theorem loopRecords_shift (idx k : Nat) (lines : List GoString) :
    loopRecords (idx + k) lines = (loopRecords idx lines).map (shiftIndex k) := by
  induction lines generalizing idx with
  | nil => rfl
  | cons line rest ih =>
    have hk : idx + k + 1 = idx + 1 + k := by omega
    rw [loopRecords, loopRecords, List.map_append, lineRecords_shift, hk, ih]

theorem loopRecords_append (idx : Nat) (a b : List GoString) :
    loopRecords idx (a ++ b) = loopRecords idx a ++ loopRecords (idx + a.length) b := by
  induction a generalizing idx with
  | nil => simp [loopRecords]
  | cons line rest ih =>
    have hk : idx + 1 + rest.length = idx + (line :: rest).length := by
      rw [List.length_cons]
      omega
    rw [List.cons_append, loopRecords, loopRecords, ih, hk, List.append_assoc]

/-! ## Claims on rule order, comment spans and composition -/

/-- C17. No string matches both the label pattern and the directive pattern
(stated on the languages of the two patterns and on the two matchers), so the
loop body that tries the directive rule first is the same function as the
loop body of the source, and so is the whole loop: the records are the same
for every input and every starting state. -/
theorem rule_order_irrelevant :
    (∀ s : GoString, LabelShape s → ¬ DirectiveShape s) ∧
    (∀ s : GoString, labelRe.FindString s ≠ [] → directiveRe.MatchString s = false) ∧
    (∀ (l : Lexer) (line : GoString), linePassBodyDirectiveFirst l line = linePassBody l line) ∧
    (∀ (lines : List GoString) (l : Lexer),
      linePassLoopDirectiveFirst lines l = linePassLoop lines l) :=
  ⟨fun _ h => LabelShape_not_DirectiveShape h, fun _ h => MatchString_false_of_FindString h,
    linePassBodyDirectiveFirst_eq, linePassLoopDirectiveFirst_eq⟩

/-- The line `loop:` matches the label pattern and not the directive pattern. -/
theorem rule_order_irrelevant_witness :
    labelRe.FindString "loop:".toList ≠ [] ∧ directiveRe.MatchString "loop:".toList = false :=
  ⟨by decide, rule_order_irrelevant.2.1 "loop:".toList (by decide)⟩

/-- C18 (counterexample). On `LDA #$01 ; step 1` the comment pattern matches the
span from offset 9 to offset 16 (`; step ` with its trailing space, the
leftover being `1`), yet the record is OP `LDA #$01`: the text with only that
span removed, `LDA #$01 1`, is not what is recorded. -/
theorem comment_leftover_counterexample :
    commentRe.FindStringIndex "LDA #$01 ; step 1".toList = some (9, 16) ∧
      (Lex (NewLexer ⟨["LDA #$01 ; step 1".toList], none⟩)).1.Lines =
        [⟨1, OP, "LDA #$01".toList⟩] ∧
      TrimSpace ("LDA #$01 ; step 1".toList.take 9 ++ "LDA #$01 ; step 1".toList.drop 16) =
        "LDA #$01 1".toList ∧
      (Lex (NewLexer ⟨["LDA #$01 ; step 1".toList], none⟩)).1.Lines ≠
        [⟨1, OP, "LDA #$01 1".toList⟩] := by
  decide

/-- C18 (amended). For a line that is not a directive line, made of `pre`
without `;`, a `;`, a run `span` of letters and spaces, and a leftover `rest`
that starts with another character (a digit, punctuation): the comment
pattern matches exactly `;` and `span`, and the line is cut where that match
starts, so the leftover is dropped with the span; the record, if any, is OP
with the trimmed `pre`. -/
theorem linePassBody_comment_leftover_dropped (l : Lexer) (pre span rest : GoString)
    (hdir : ¬ DirectiveShape (pre ++ ';' :: (span ++ rest))) (hpre : ';' ∉ pre)
    (hspan : ∀ c ∈ span, isCommentChar c = true)
    (hrest : ∀ c, rest.head? = some c → isCommentChar c = false) :
    commentRe.FindStringIndex (pre ++ ';' :: (span ++ rest)) =
        some (pre.length, pre.length + 1 + span.length) ∧
      (linePassBody l (pre ++ ';' :: (span ++ rest))).Lines =
        l.Lines ++ (if TrimSpace pre = [] then [] else [⟨l.Line, OP, TrimSpace pre⟩]) := by
  refine ⟨commentRe_FindStringIndex_span hpre hspan hrest, ?_⟩
  have hlab : ¬ LabelShape (pre ++ ';' :: (span ++ rest)) :=
    fun h => semi_not_mem_of_LabelShape h (by simp)
  exact linePassBody_comment l (span ++ rest) hlab hdir hpre

/-- The line `LDA #$01 ; step 1`, with `LDA #$01 ` before the `;`, the run
` step ` after it and the leftover `1`. -/
theorem linePassBody_comment_leftover_dropped_witness :
    ¬ DirectiveShape ("LDA #$01 ".toList ++ ';' :: (" step ".toList ++ "1".toList)) ∧
      ';' ∉ "LDA #$01 ".toList ∧ (∀ c ∈ " step ".toList, isCommentChar c = true) ∧
      (∀ c, "1".toList.head? = some c → isCommentChar c = false) ∧
      commentRe.FindStringIndex ("LDA #$01 ".toList ++ ';' :: (" step ".toList ++ "1".toList)) =
        some ("LDA #$01 ".toList.length,
          "LDA #$01 ".toList.length + 1 + " step ".toList.length) ∧
      (linePassBody (NewLexer ⟨[], none⟩)
          ("LDA #$01 ".toList ++ ';' :: (" step ".toList ++ "1".toList))).Lines =
        (NewLexer ⟨[], none⟩).Lines ++
          (if TrimSpace "LDA #$01 ".toList = [] then []
            else [⟨(NewLexer ⟨[], none⟩).Line, OP, TrimSpace "LDA #$01 ".toList⟩]) :=
  ⟨not_DirectiveShape_of_MatchString (by decide), by decide, by decide, by decide,
    linePassBody_comment_leftover_dropped (NewLexer ⟨[], none⟩) "LDA #$01 ".toList
      " step ".toList "1".toList (not_DirectiveShape_of_MatchString (by decide)) (by decide)
      (by decide) (by decide)⟩

/-- C19. The records `Lex` leaves on a fresh lexer over `a ++ b` are the records
over `a` followed by the records over `b` with every Index increased by the
length of `a`, whatever way the three readers end. -/
theorem Lex_append (a b : List GoString) (f fa fb : Option GoError) :
    (Lex (NewLexer ⟨a ++ b, f⟩)).1.Lines =
      (Lex (NewLexer ⟨a, fa⟩)).1.Lines ++
        ((Lex (NewLexer ⟨b, fb⟩)).1.Lines).map (shiftIndex a.length) := by
  rw [Lex_Lines, Lex_Lines, Lex_Lines]
  show loopRecords 1 (a ++ b) = loopRecords 1 a ++ (loopRecords 1 b).map (shiftIndex a.length)
  rw [loopRecords_append, loopRecords_shift]

end parser
